import Mathlib

/-!
Verification of the query-execution operators of `src/a6/Operators.cpp`.

Shallow embedding conventions:
* a column value is an `Int`; a `Row` is a `List Int`; `Row::at(i)` becomes
  `rowAt r i` (total, defaulting to 0 out of bounds — all claims use
  in-bounds rows);
* each operator's mutable cursor state becomes an explicit state record;
  a child iterator is modelled as a restartable list-backed stream: the
  state keeps the full child row sequence (`all`/`childAll`, the
  configuration that survives `close`) and the cursor's remaining suffix;
* `open`, `next`, `close` become pure state transformers; `next` returns
  `Option Row × state` (`none` is the end-of-stream NULL sentinel);
* a consumer drain ("call `next` until NULL") is `runFuel step fuel s`,
  which stops at the first `none` or when the fuel runs out; theorems
  supply fuel at least the obvious bound;
* `std::sort` (called by `Sort::open`) is modelled by its contract: the
  materialized vector afterwards is some permutation of the input that is
  sorted with respect to the comparator (`sortedPerm`); where determinism
  of a single `std::sort` implementation matters (re-open idempotence) the
  sort is an arbitrary function parameter `impl`.
-/

namespace DBOps

/-- A column value is an `Int`; a row is its ordered column values. -/
abbrev Row := List Int

/-- `Row::at(i)`: the i-th column value (total; claims use in-bounds rows). -/
def rowAt (r : Row) (i : Nat) : Int := r.getD i 0

/-- Drive an iterator: call `step` repeatedly, collecting rows until the
end-of-stream sentinel `none` (or until the fuel runs out). -/
def runFuel {σ : Type} (step : σ → Option Row × σ) : Nat → σ → List Row
  | 0, _ => []
  | fuel + 1, s =>
    match step s with
    | (none, _) => []
    | (some r, s') => r :: runFuel step fuel s'

/-- Like `runFuel`, but also return the state after the drain (the state in
which the consumer then calls `close`). -/
def runTrace {σ : Type} (step : σ → Option Row × σ) : Nat → σ → List Row × σ
  | 0, s => ([], s)
  | fuel + 1, s =>
    match step s with
    | (none, s') => ([], s')
    | (some r, s') =>
      let t := runTrace step fuel s'
      (r :: t.1, t.2)

/-! ## TableIterator -/

/-- State of `TableIterator`: the table (column count and row collection,
the construction-time configuration) and the cursor `_input`, modelled as
the remaining suffix of the row collection.  (`_end` is set to
`rows().end()` by the constructor and by `close` and never otherwise
changed, so it is invariantly the end of the collection and is left
implicit.) -/
structure TIState where
  tcols : Nat
  all : List Row
  rem : List Row

/-- `TableIterator::n_columns`: the table's column count. -/
def TI.nColumns (s : TIState) : Nat := s.tcols

/-- `TableIterator::open`: `_input = _table->rows().begin()`. -/
def TI.openS (s : TIState) : TIState := { s with rem := s.all }

/-- `TableIterator::close`: `_input = _end = _table->rows().end()`. -/
def TI.closeS (s : TIState) : TIState := { s with rem := [] }

/-- `TableIterator::next`: return the row at the cursor and advance, or
NULL at the end. -/
def TI.step (s : TIState) : Option Row × TIState :=
  match s.rem with
  | [] => (none, s)
  | r :: rest => (some r, { s with rem := rest })

/-! ## IndexScan -/

/-- State of `IndexScan`: the index (its stored-row width and its
(key row, data row) entries in key order), the bounds `_lo`/`_hi`, and the
cursor `_input` as the remaining suffix of the entries. -/
structure ISState where
  icols : Nat
  entries : List (Row × Row)
  lo : Row
  hi : Row
  rem : List (Row × Row)

/-- `IndexScan::IndexScan(index, lo, hi)`: `_hi(hi == NULL ? lo : hi)`.
The cursor is unpositioned until `open`; we start it empty. -/
def IS.mkState (icols : Nat) (entries : List (Row × Row)) (lo : Row)
    (hi : Option Row) : ISState :=
  ⟨icols, entries, lo, hi.getD lo, []⟩

/-- `IndexScan::n_columns`: the index's stored-row width. -/
def IS.nColumns (s : ISState) : Nat := s.icols

/-- `IndexScan::open`: `_input = _index->begin(); _end = _index->end()`. -/
def IS.openS (s : ISState) : ISState := { s with rem := s.entries }

/-- `IndexScan::close`: `_input = _index->end()`. -/
def IS.closeS (s : ISState) : ISState := { s with rem := [] }

/-- The loop body of `IndexScan::next`: advance through the remaining
entries; an entry is returned iff its leading key column lies in
`[lo[0], hi[0]]`, otherwise it is skipped.  (The `!_index->empty()` guard
in the source is redundant: with an empty index the loop body runs zero
times either way.) -/
def IS.next (lo hi : Row) : List (Row × Row) → Option Row × List (Row × Row)
  | [] => (none, [])
  | e :: rest =>
    if rowAt lo 0 ≤ rowAt e.1 0 ∧ rowAt e.1 0 ≤ rowAt hi 0 then
      (some e.2, rest)
    else
      IS.next lo hi rest

/-- `IndexScan::next` on the full state. -/
def IS.step (s : ISState) : Option Row × ISState :=
  let t := IS.next s.lo s.hi s.rem
  (t.1, { s with rem := t.2 })

/-! ## Select -/

/-- State of `Select`: the child stream (full sequence, for restart, and
the cursor's remaining suffix) and the child's reported column count.  The
predicate is a configuration parameter of the step functions. -/
structure SelState where
  cw : Nat
  all : List Row
  rem : List Row

/-- `Select::n_columns`: passes through the child's. -/
def Sel.nColumns (s : SelState) : Nat := s.cw

/-- `Select::open`: opens the child (the child restarts from the top). -/
def Sel.openS (s : SelState) : SelState := { s with rem := s.all }

/-- `Select::close`: closes the child. -/
def Sel.closeS (s : SelState) : SelState := { s with rem := [] }

/-- The loop of `Select::next` on the child's remaining rows: pull from
the child until the predicate accepts a row (return it and the rest) or
the child is exhausted (return NULL). -/
def Sel.next (p : Row → Bool) : List Row → Option Row × List Row
  | [] => (none, [])
  | row :: rest => if p row then (some row, rest) else Sel.next p rest

/-- `Select::next` on the full state. -/
def Sel.step (p : Row → Bool) (s : SelState) : Option Row × SelState :=
  let t := Sel.next p s.rem
  (t.1, { s with rem := t.2 })

/-- `Select::next`, instrumented for ownership accounting: the third
component lists the rows on which the operator called `Row::reclaim`
during the call.  The source's loop body contains no reclaim call — a
rejected row is simply overwritten by the next pull — so nothing is ever
recorded. -/
def Sel.nextR (p : Row → Bool) : List Row → Option Row × List Row × List Row
  | [] => (none, [], [])
  | row :: rest =>
    if p row then (some row, rest, [])
    else
      let t := Sel.nextR p rest
      (t.1, t.2.1, t.2.2)

/-! ## Project -/

/-- State of `Project`: the selected column positions (the Column
Selector's selected list) and the child stream. -/
structure ProjState where
  cols : List Nat
  all : List Row
  rem : List Row

/-- `Project::n_columns`: `_column_selector.n_selected()`. -/
def Proj.nColumns (s : ProjState) : Nat := s.cols.length

/-- `Project::open`: opens the child. -/
def Proj.openS (s : ProjState) : ProjState := { s with rem := s.all }

/-- `Project::close`: closes the child. -/
def Proj.closeS (s : ProjState) : ProjState := { s with rem := [] }

/-- `Project::next` on the child's remaining rows: pull one row, build a
new row from the selected columns in selector order (the original row is
then reclaimed). -/
def Proj.next (cols : List Nat) : List Row → Option Row × List Row
  | [] => (none, [])
  | row :: rest => (some (cols.map (fun c => rowAt row c)), rest)

/-- `Project::next` on the full state. -/
def Proj.step (s : ProjState) : Option Row × ProjState :=
  let t := Proj.next s.cols s.rem
  (t.1, { s with rem := t.2 })

/-! ## NestedLoopsJoin -/

/-- State of `NestedLoopsJoin`: the two join-column selector lists, the
two children's reported widths (recorded at construction for
`n_columns`), the two child streams (full sequences for restart, and
cursor suffixes), and the retained current left row `_left_row`. -/
structure NLJState where
  lsel : List Nat
  rsel : List Nat
  lw : Nat
  rw : Nat
  lAll : List Row
  rAll : List Row
  lrow : Option Row
  lrem : List Row
  rrem : List Row

/-- `NestedLoopsJoin::n_columns`: the sum of the two selectors' source
widths minus one.  (The guard `n_selected() >= 0` in the source compares
unsigned values and is always true; the `return 0` branch is dead code.) -/
def NLJ.nColumns (s : NLJState) : Nat := s.lw + s.rw - 1

/-- `NestedLoopsJoin::match`: equality of the two rows at the *first*
selected column of each side only (`selected(0)`). -/
def nljMatch (lsel rsel : List Nat) (l r : Row) : Bool :=
  rowAt l (lsel.getD 0 0) == rowAt r (rsel.getD 0 0)

/-- `NestedLoopsJoin::join_rows_if_match`: a new row holding all left
columns, then every right column whose index differs from the joined-on
right column `selected(0)`. -/
def joinRows (rsel0 : Nat) (l r : Row) : Row :=
  (List.range l.length).map (fun i => rowAt l i) ++
    (List.range r.length).filterMap
      (fun i => if i = rsel0 then none else some (rowAt r i))

/-- The left-scanning phase of the `while` loop in
`NestedLoopsJoin::next`: with current left row `lrow` and right row `r`,
keep advancing the left cursor while the pair does not match; return the
first matching left row and the left cursor after it, or `none` when the
left side is exhausted without a match. -/
def NLJ.scanL (lsel rsel : List Nat) (r : Row) :
    Row → List Row → Option (Row × List Row)
  | lrow, [] => if nljMatch lsel rsel lrow r then some (lrow, []) else none
  | lrow, l' :: lrest =>
    if nljMatch lsel rsel lrow r then some (lrow, l' :: lrest)
    else NLJ.scanL lsel rsel r l' lrest

/-- The full `while` loop of `NestedLoopsJoin::next`: starting from the
loop-entry condition check, scan the left side for a match with the
current right row; when the left side is exhausted, pull the next right
row, close and re-open the left child (restarting its scan from the
beginning) and continue; stop on a match, or when either row is NULL.
Returns the final `(_left_row, left cursor, r_row, right cursor)`.
(The two right-cursor cases duplicate the same left-scan step; they are
split only so the recursion is visibly structural on the right cursor.) -/
def NLJ.findMatch (lsel rsel : List Nat) (lAll : List Row) :
    Option Row → List Row → Option Row → List Row →
    Option Row × List Row × Option Row × List Row
  | lrow?, lrem, none, rrem => (lrow?, lrem, none, rrem)
  | none, lrem, some r, rrem => (none, lrem, some r, rrem)
  | some l, lrem, some r, [] =>
    match NLJ.scanL lsel rsel r l lrem with
    | some (l', lrem') => (some l', lrem', some r, [])
    | none => (none, [], none, [])
  | some l, lrem, some r, r' :: rrest =>
    match NLJ.scanL lsel rsel r l lrem with
    | some (l', lrem') => (some l', lrem', some r, r' :: rrest)
    | none =>
      match lAll with
      | [] => (none, [], some r', rrest)
      | l0 :: lrest0 => NLJ.findMatch lsel rsel lAll (some l0) lrest0 (some r') rrest

/-- `NestedLoopsJoin::next`: pull a right row, run the matching loop; on
a match emit the concatenated row (the consumed right row is then
reclaimed; the left row is retained as `_left_row`), otherwise NULL. -/
def NLJ.step (s : NLJState) : Option Row × NLJState :=
  let t := NLJ.findMatch s.lsel s.rsel s.lAll s.lrow s.lrem s.rrem.head? s.rrem.tail
  match t with
  | (some l, lrem', some r, rrem') =>
    (some (joinRows (s.rsel.getD 0 0) l r),
     { s with lrow := some l, lrem := lrem', rrem := rrem' })
  | (lrow', lrem', _, rrem') =>
    (none, { s with lrow := lrow', lrem := lrem', rrem := rrem' })

/-- `NestedLoopsJoin::open`: open both children and pull the first left
row. -/
def NLJ.openS (s : NLJState) : NLJState :=
  { s with lrow := s.lAll.head?, lrem := s.lAll.tail, rrem := s.rAll }

/-- `NestedLoopsJoin::close`: close both children (`_left_row` is not
reset). -/
def NLJ.closeS (s : NLJState) : NLJState := { s with lrem := [], rrem := [] }

/-! ## Sort -/

/-- RowCompare's strict `<`.  Modelled from the spec: the `RowCompare`
class itself is not under `src/` (only its use in `Sort::open` is); per
§3 of the spec it compares the rows column by column in the listed key
order, the first unequal column deciding, and rows equal on all listed
columns are tied. -/
def rowLt (cols : List Nat) (a b : Row) : Bool :=
  match cols with
  | [] => false
  | c :: rest =>
    if rowAt a c < rowAt b c then true
    else if rowAt b c < rowAt a c then false
    else rowLt rest a b

/-- Sortedness with respect to the comparator, as `std::is_sorted` checks
it: for each consecutive pair the later row does not compare strictly
below the earlier one (nondecreasing order under `RowCompare`). -/
def sortedBy (cols : List Nat) : List Row → Bool
  | [] => true
  | [_] => true
  | a :: b :: rest => !rowLt cols b a && sortedBy cols (b :: rest)

/-- The `std::sort` postcondition at the call in `Sort::open`: the
materialized vector afterwards is a permutation of the drained child rows
and is sorted with respect to `RowCompare`.  `std::sort` guarantees
nothing more — in particular not stability. -/
def sortedPerm (cols : List Nat) (input out : List Row) : Prop :=
  out.Perm input ∧ sortedBy cols out = true

/-- State of `Sort`: the sort key columns and the child's width
(configuration), the child stream, the materialized vector `_sorted`, and
the read cursor `_sorted_iterator` as the remaining suffix. -/
structure SortState where
  cw : Nat
  scols : List Nat
  childAll : List Row
  childRem : List Row
  sorted : List Row
  rem : List Row

/-- `Sort::n_columns`: passes through the child's. -/
def SortOp.nColumns (s : SortState) : Nat := s.cw

/-- `Sort::open`, with the `std::sort` run supplied as a function `impl`:
open the child, clear `_sorted`, drain the child fully into it (the
restarted list child yields exactly `childAll`, leaving its cursor
exhausted), sort in place, and position the read cursor at the start.
(The final `Row::reclaim(row)` in the source reclaims the NULL sentinel —
a no-op.) -/
def SortOp.openS (impl : List Nat → List Row → List Row) (s : SortState) :
    SortState :=
  { s with childRem := [],
           sorted := impl s.scols s.childAll,
           rem := impl s.scols s.childAll }

/-- `Sort::close`: closes the child (`_sorted` and the read cursor are not
touched). -/
def SortOp.closeS (s : SortState) : SortState := { s with childRem := [] }

/-- `Sort::next`: return the row at the read cursor and advance, or NULL
at the end of the materialized vector. -/
def SortOp.step (s : SortState) : Option Row × SortState :=
  match s.rem with
  | [] => (none, s)
  | r :: rest => (some r, { s with rem := rest })

/-! ## Unique -/

/-- State of `Unique`: the child's width, the child stream, and the
retained `_last_unique` row (initially NULL; notably reset by neither
`close` nor `open`). -/
structure UState where
  cw : Nat
  childAll : List Row
  childRem : List Row
  last : Option Row

/-- `Unique::n_columns`: passes through the child's. -/
def UniqueOp.nColumns (s : UState) : Nat := s.cw

/-- `Unique::open`: opens the child; `_last_unique` keeps its value. -/
def UniqueOp.openS (s : UState) : UState := { s with childRem := s.childAll }

/-- `Unique::close`: closes the child; `_last_unique` keeps its value. -/
def UniqueOp.closeS (s : UState) : UState := { s with childRem := [] }

/-- The column loop inside `Unique::next`: the flag `equal` stays `true`
iff every column of `row` compares equal to the same column of
`lastRow`. -/
def allColumnsEq (row lastRow : Row) : Bool :=
  (List.range row.length).all (fun i => rowAt row i == rowAt lastRow i)

/-- The loop of `Unique::next` on the child's remaining rows, returning
`(emitted row or NULL, new _last_unique, rest of child)`.  The first row
ever pulled (NULL `_last_unique`) is emitted and retained.  A later row
is compared with `_last_unique` only when the sizes are equal: if some
column compares unequal it is emitted and retained; if all columns are
equal it is skipped.  A row whose size differs from `_last_unique` falls
through the size guard and is likewise skipped. -/
def UniqueOp.next (last : Option Row) :
    List Row → Option Row × Option Row × List Row
  | [] => (none, last, [])
  | row :: rest =>
    match last with
    | none => (some row, some row, rest)
    | some lastRow =>
      if row.length = lastRow.length then
        if allColumnsEq row lastRow then
          UniqueOp.next last rest
        else (some row, some row, rest)
      else UniqueOp.next last rest

/-- `Unique::next` on the full state. -/
def UniqueOp.step (s : UState) : Option Row × UState :=
  let t := UniqueOp.next s.last s.childRem
  (t.1, { s with last := t.2.1, childRem := t.2.2 })

/-- The example predicate "column 0 > 5" from §8 of the spec. -/
def gtFive : Row → Bool := fun r => decide (5 < rowAt r 0)

/-! ## General drain lemmas -/

theorem runFuel_succ {σ : Type} (step : σ → Option Row × σ) (f : Nat) (s : σ) :
    runFuel step (f + 1) s =
      match step s with
      | (none, _) => []
      | (some r, s') => r :: runFuel step f s' := rfl

/-- Invariant-based membership: if every `step` from an invariant state
emits only rows satisfying `P` and preserves the invariant, every row of
a drain from an invariant state satisfies `P`. -/
theorem runFuel_inv_mem {σ : Type} (step : σ → Option Row × σ) (P : Row → Prop)
    (Inv : σ → Prop)
    (h : ∀ s, Inv s → ∀ r s', step s = (some r, s') → P r ∧ Inv s') :
    ∀ (fuel : Nat) (s : σ), Inv s → ∀ r ∈ runFuel step fuel s, P r := by
  intro fuel
  induction fuel with
  | zero => intro s _ r hr; simp [runFuel] at hr
  | succ f ih =>
    intro s hs r hr
    rcases hstep : step s with ⟨o, s'⟩
    cases o with
    | none => simp [runFuel, hstep] at hr
    | some r0 =>
      obtain ⟨hP, hInv⟩ := h s hs r0 s' hstep
      simp only [runFuel, hstep, List.mem_cons] at hr
      rcases hr with rfl | hr
      · exact hP
      · exact ih s' hInv r hr

/-! ## Select lemmas -/

theorem sel_next_skip (p : Row → Bool) (row : Row) (rest : List Row)
    (h : p row = false) : Sel.next p (row :: rest) = Sel.next p rest := by
  simp [Sel.next, h]

/-- Draining `Select` yields exactly the child rows accepted by the
predicate, in child order (with fuel at least the child length). -/
theorem sel_drain (p : Row → Bool) :
    ∀ (l : List Row) (fuel : Nat), l.length ≤ fuel →
      runFuel (Sel.next p) fuel l = l.filter p := by
  intro l
  induction l with
  | nil =>
    intro fuel _
    cases fuel with
    | zero => simp [runFuel]
    | succ f => simp [runFuel, Sel.next]
  | cons row rest ih =>
    intro fuel hf
    cases fuel with
    | zero => simp at hf
    | succ f =>
      by_cases hp : p row
      · have hr : rest.length ≤ f := by
          simp only [List.length_cons] at hf; omega
        simp [runFuel, Sel.next, hp, List.filter_cons, ih f hr]
      · have hp' : p row = false := by simpa using hp
        rw [runFuel_succ, sel_next_skip p row rest hp', ← runFuel_succ]
        have hr : rest.length ≤ f + 1 := by
          simp only [List.length_cons] at hf; omega
        rw [ih (f + 1) hr]
        simp [List.filter_cons, hp']

/-! ## IndexScan lemmas -/

theorem is_next_skip (lo hi : Row) (e : Row × Row) (rest : List (Row × Row))
    (h : ¬(rowAt lo 0 ≤ rowAt e.1 0 ∧ rowAt e.1 0 ≤ rowAt hi 0)) :
    IS.next lo hi (e :: rest) = IS.next lo hi rest := by
  simp [IS.next, h]

/-- Draining `IndexScan` yields exactly the data rows of the entries
whose leading key column lies in `[lo[0], hi[0]]`, in index order. -/
theorem is_drain (lo hi : Row) :
    ∀ (l : List (Row × Row)) (fuel : Nat), l.length ≤ fuel →
      runFuel (IS.next lo hi) fuel l =
        (l.filter (fun e =>
          decide (rowAt lo 0 ≤ rowAt e.1 0 ∧ rowAt e.1 0 ≤ rowAt hi 0))).map
          Prod.snd := by
  intro l
  induction l with
  | nil =>
    intro fuel _
    cases fuel with
    | zero => simp [runFuel]
    | succ f => simp [runFuel, IS.next]
  | cons e rest ih =>
    intro fuel hf
    cases fuel with
    | zero => simp at hf
    | succ f =>
      by_cases hin : rowAt lo 0 ≤ rowAt e.1 0 ∧ rowAt e.1 0 ≤ rowAt hi 0
      · have hr : rest.length ≤ f := by
          simp only [List.length_cons] at hf; omega
        simp [runFuel, IS.next, hin, List.filter_cons, ih f hr]
      · rw [runFuel_succ, is_next_skip lo hi e rest hin, ← runFuel_succ]
        have hr : rest.length ≤ f + 1 := by
          simp only [List.length_cons] at hf; omega
        rw [ih (f + 1) hr]
        simp [List.filter_cons, hin]

/-! ## Cursor-streaming (TableIterator / Sort) lemmas -/

/-- Draining `TableIterator` yields the remaining rows in order. -/
theorem ti_drain :
    ∀ (rem : List Row) (fuel tc : Nat) (all : List Row),
      rem.length ≤ fuel → runFuel TI.step fuel ⟨tc, all, rem⟩ = rem := by
  intro rem
  induction rem with
  | nil => intro fuel tc all _; cases fuel <;> simp [runFuel, TI.step]
  | cons r rest ih =>
    intro fuel tc all hf
    cases fuel with
    | zero => simp at hf
    | succ f =>
      have hr : rest.length ≤ f := by
        simp only [List.length_cons] at hf; omega
      simp [runFuel, TI.step, ih f tc all hr]

/-- Draining `Sort` after `open` yields the materialized sorted rows in
order. -/
theorem sort_drain :
    ∀ (rem : List Row) (fuel cw : Nat) (scols : List Nat)
      (cAll cRem srt : List Row),
      rem.length ≤ fuel →
      runFuel SortOp.step fuel ⟨cw, scols, cAll, cRem, srt, rem⟩ = rem := by
  intro rem
  induction rem with
  | nil =>
    intro fuel cw scols cAll cRem srt _
    cases fuel <;> simp [runFuel, SortOp.step]
  | cons r rest ih =>
    intro fuel cw scols cAll cRem srt hf
    cases fuel with
    | zero => simp at hf
    | succ f =>
      have hr : rest.length ≤ f := by
        simp only [List.length_cons] at hf; omega
      simp [runFuel, SortOp.step, ih f cw scols cAll cRem srt hr]

/-! ## join_rows_if_match lemmas -/

theorem map_range_rowAt (l : Row) :
    (List.range l.length).map (fun i => rowAt l i) = l := by
  induction l with
  | nil => simp
  | cons a t ih =>
    have h1 : ((fun i => rowAt (a :: t) i) ∘ Nat.succ) = fun i => rowAt t i := by
      funext i; simp [rowAt]
    rw [List.length_cons, List.range_succ_eq_map, List.map_cons, List.map_map,
      h1, ih]
    rfl

theorem filterMap_range_eraseIdx (r : Row) :
    ∀ k : Nat,
      (List.range r.length).filterMap
        (fun i => if i = k then none else some (rowAt r i)) = r.eraseIdx k := by
  induction r with
  | nil => intro k; simp
  | cons a t ih =>
    intro k
    rw [List.length_cons, List.range_succ_eq_map, List.filterMap_cons,
      List.filterMap_map]
    cases k with
    | zero =>
      have h1 : ((fun i => if i = 0 then none else some (rowAt (a :: t) i)) ∘
          Nat.succ) = some ∘ (fun i => rowAt t i) := by
        funext i; simp [rowAt, Function.comp]
      rw [h1, List.filterMap_eq_map, map_range_rowAt t]
      simp
    | succ m =>
      have h1 : ((fun i => if i = m + 1 then none else some (rowAt (a :: t) i)) ∘
          Nat.succ) = fun i => if i = m then none else some (rowAt t i) := by
        funext i
        by_cases hi : i = m
        · subst hi; simp
        · rw [Function.comp_apply, if_neg (by omega), if_neg hi]
          simp [rowAt]
      rw [h1, ih m]
      simp [rowAt]

/-- The row emitted on a match is all left columns followed by the right
row with the joined-on right column removed. -/
theorem joinRows_eq (k : Nat) (l r : Row) :
    joinRows k l r = l ++ r.eraseIdx k := by
  rw [joinRows, map_range_rowAt, filterMap_range_eraseIdx]

theorem joinRows_length (k : Nat) (l r : Row) (h : k < r.length) :
    (joinRows k l r).length = l.length + r.length - 1 := by
  rw [joinRows_eq, List.length_append, List.length_eraseIdx_of_lt h]
  omega

/-! ## Small permutation enumeration lemmas -/

theorem perm_pair {α : Type} {out : List α} {a b : α} (h : out.Perm [a, b]) :
    out = [a, b] ∨ out = [b, a] := by
  have hlen := h.length_eq
  rcases out with _ | ⟨x, _ | ⟨y, _ | ⟨z, t⟩⟩⟩ <;> simp at hlen
  have hx : x ∈ [a, b] := h.mem_iff.mp (List.mem_cons_self x [y])
  simp at hx
  rcases hx with rfl | rfl
  · have h2 : [y].Perm [b] := h.cons_inv
    left
    rw [List.perm_singleton.mp h2]
  · have h2 : [y].Perm [a] := (h.trans (List.Perm.swap x a [])).cons_inv
    right
    rw [List.perm_singleton.mp h2]

theorem perm_three {α : Type} {out : List α} {a b c : α}
    (h : out.Perm [a, b, c]) :
    out = [a, b, c] ∨ out = [a, c, b] ∨ out = [b, a, c] ∨ out = [b, c, a] ∨
      out = [c, a, b] ∨ out = [c, b, a] := by
  have hlen := h.length_eq
  rcases out with _ | ⟨x, _ | ⟨y, _ | ⟨z, _ | ⟨w, t⟩⟩⟩⟩ <;> simp at hlen
  have hx : x ∈ [a, b, c] := h.mem_iff.mp (List.mem_cons_self x [y, z])
  simp at hx
  rcases hx with rfl | rfl | rfl
  · have h2 : [y, z].Perm [b, c] := h.cons_inv
    rcases perm_pair h2 with h3 | h3 <;> simp only [List.cons.injEq] at h3 <;>
      obtain ⟨rfl, rfl, -⟩ := h3
    · exact Or.inl rfl
    · exact Or.inr (Or.inl rfl)
  · have h2 : [y, z].Perm [a, c] := (h.trans (List.Perm.swap x a [c])).cons_inv
    rcases perm_pair h2 with h3 | h3 <;> simp only [List.cons.injEq] at h3 <;>
      obtain ⟨rfl, rfl, -⟩ := h3
    · exact Or.inr (Or.inr (Or.inl rfl))
    · exact Or.inr (Or.inr (Or.inr (Or.inl rfl)))
  · have hperm : ([a, b, x] : List α).Perm [x, a, b] :=
      (List.Perm.cons a (List.Perm.swap x b [])).trans (List.Perm.swap x a [b])
    have h2 : [y, z].Perm [a, b] := (h.trans hperm).cons_inv
    rcases perm_pair h2 with h3 | h3 <;> simp only [List.cons.injEq] at h3 <;>
      obtain ⟨rfl, rfl, -⟩ := h3
    · exact Or.inr (Or.inr (Or.inr (Or.inr (Or.inl rfl))))
    · exact Or.inr (Or.inr (Or.inr (Or.inr (Or.inr rfl))))

/-! ## NestedLoopsJoin loop lemmas -/

/-- The left scan stops at the first matching left row: the scanned rows
split into a non-matching prefix, the returned matching row, and the
cursor rest. -/
theorem scanL_decomp (lsel rsel : List Nat) (r : Row) :
    ∀ (lrem : List Row) (lrow l' : Row) (lrem' : List Row),
      NLJ.scanL lsel rsel r lrow lrem = some (l', lrem') →
      ∃ pre, lrow :: lrem = pre ++ l' :: lrem' ∧
        (∀ x ∈ pre, nljMatch lsel rsel x r = false) ∧
        nljMatch lsel rsel l' r = true := by
  intro lrem
  induction lrem with
  | nil =>
    intro lrow l' lrem' h
    by_cases hm : nljMatch lsel rsel lrow r
    · simp only [NLJ.scanL, if_pos hm, Option.some.injEq, Prod.mk.injEq] at h
      obtain ⟨rfl, rfl⟩ := h
      exact ⟨[], rfl, by simp, hm⟩
    · simp only [NLJ.scanL, if_neg hm] at h
      exact Option.noConfusion h
  | cons l2 lrest ih =>
    intro lrow l' lrem' h
    by_cases hm : nljMatch lsel rsel lrow r
    · simp only [NLJ.scanL, if_pos hm, Option.some.injEq, Prod.mk.injEq] at h
      obtain ⟨rfl, rfl⟩ := h
      exact ⟨[], rfl, by simp, hm⟩
    · simp only [NLJ.scanL, if_neg hm] at h
      obtain ⟨pre, hpre, hall, hl'⟩ := ih l2 l' lrem' h
      refine ⟨lrow :: pre, by simp [hpre], ?_, hl'⟩
      intro x hx
      rcases List.mem_cons.mp hx with rfl | hx
      · simpa using hm
      · exact hall x hx

/-- Membership form: the matching row comes from the scanned rows and the
remaining cursor is a sub-collection of the scanned suffix. -/
theorem scanL_mem (lsel rsel : List Nat) (r : Row) (lrem : List Row)
    (lrow l' : Row) (lrem' : List Row)
    (h : NLJ.scanL lsel rsel r lrow lrem = some (l', lrem')) :
    l' ∈ lrow :: lrem ∧ ∀ x ∈ lrem', x ∈ lrow :: lrem := by
  obtain ⟨pre, hpre, -, -⟩ := scanL_decomp lsel rsel r lrem lrow l' lrem' h
  constructor
  · rw [hpre]; simp
  · intro x hx; rw [hpre]; simp [hx]

/-- The matching loop never grows the right cursor. -/
theorem findMatch_rrem_le (lsel rsel : List Nat) (lAll : List Row) :
    ∀ (rrem : List Row) (lrow? : Option Row) (lrem : List Row)
      (rrow? : Option Row),
      (NLJ.findMatch lsel rsel lAll lrow? lrem rrow? rrem).2.2.2.length ≤
        rrem.length := by
  intro rrem
  induction rrem with
  | nil =>
    intro lrow? lrem rrow?
    cases rrow? with
    | none => simp [NLJ.findMatch]
    | some r =>
      cases lrow? with
      | none => simp [NLJ.findMatch]
      | some l =>
        rcases hs : NLJ.scanL lsel rsel r l lrem with _ | ⟨l', lrem'⟩
        · simp [NLJ.findMatch, hs]
        · simp [NLJ.findMatch, hs]
  | cons r2 rrest ih =>
    intro lrow? lrem rrow?
    cases rrow? with
    | none => simp [NLJ.findMatch]
    | some r =>
      cases lrow? with
      | none => simp [NLJ.findMatch]
      | some l =>
        rcases hs : NLJ.scanL lsel rsel r l lrem with _ | ⟨l', lrem'⟩
        · cases lAll with
          | nil => simp [NLJ.findMatch, hs]
          | cons l0 lrest0 =>
            have := ih (some l0) lrest0 (some r2)
            simp only [NLJ.findMatch, hs]
            simp only [List.length_cons]
            omega
        · simp only [NLJ.findMatch, hs]
          simp

/-- The matching loop draws its outputs from the scanned pools: left
outputs from the current left row, the left cursor or the full left
collection; right outputs from the current right row or the right
cursor. -/
theorem findMatch_pools (lsel rsel : List Nat) (lAll : List Row)
    (Q R : Row → Prop) (hAll : ∀ x ∈ lAll, Q x) :
    ∀ (rrem : List Row) (lrow? : Option Row) (lrem : List Row)
      (rrow? : Option Row),
      (∀ x, lrow? = some x → Q x) → (∀ x ∈ lrem, Q x) →
      (∀ x, rrow? = some x → R x) → (∀ x ∈ rrem, R x) →
      (∀ x, (NLJ.findMatch lsel rsel lAll lrow? lrem rrow? rrem).1 = some x →
        Q x) ∧
      (∀ x ∈ (NLJ.findMatch lsel rsel lAll lrow? lrem rrow? rrem).2.1, Q x) ∧
      (∀ x, (NLJ.findMatch lsel rsel lAll lrow? lrem rrow? rrem).2.2.1 =
        some x → R x) ∧
      (∀ x ∈ (NLJ.findMatch lsel rsel lAll lrow? lrem rrow? rrem).2.2.2,
        R x) := by
  intro rrem
  induction rrem with
  | nil =>
    intro lrow? lrem rrow? hQl hQrem hRr hRrem
    cases rrow? with
    | none =>
      simp only [NLJ.findMatch]
      exact ⟨hQl, hQrem, by intro x hx; exact Option.noConfusion hx, hRrem⟩
    | some r =>
      cases lrow? with
      | none =>
        refine ⟨?_, hQrem, ?_, hRrem⟩
        · intro x hx; exact Option.noConfusion hx
        · intro x hx
          simp only [NLJ.findMatch, Option.some.injEq] at hx
          exact hx ▸ hRr r rfl
      | some l =>
        rcases hs : NLJ.scanL lsel rsel r l lrem with _ | ⟨l', lrem'⟩
        · simp only [NLJ.findMatch, hs]
          exact ⟨by intro x hx; exact Option.noConfusion hx, by simp,
            by intro x hx; exact Option.noConfusion hx, by simp⟩
        · obtain ⟨hl', hsub⟩ := scanL_mem lsel rsel r lrem l l' lrem' hs
          have hQpool : ∀ x ∈ l :: lrem, Q x := by
            intro x hx
            rcases List.mem_cons.mp hx with rfl | hx
            · exact hQl x rfl
            · exact hQrem x hx
          simp only [NLJ.findMatch, hs]
          refine ⟨?_, ?_, ?_, by simp⟩
          · intro x hx
            simp only [Option.some.injEq] at hx
            exact hx ▸ hQpool l' hl'
          · intro x hx
            exact hQpool x (hsub x hx)
          · intro x hx
            simp only [Option.some.injEq] at hx
            exact hx ▸ hRr r rfl
  | cons r2 rrest ih =>
    intro lrow? lrem rrow? hQl hQrem hRr hRrem
    cases rrow? with
    | none =>
      simp only [NLJ.findMatch]
      exact ⟨hQl, hQrem, by intro x hx; exact Option.noConfusion hx, hRrem⟩
    | some r =>
      cases lrow? with
      | none =>
        refine ⟨?_, hQrem, ?_, hRrem⟩
        · intro x hx; exact Option.noConfusion hx
        · intro x hx
          simp only [NLJ.findMatch, Option.some.injEq] at hx
          exact hx ▸ hRr r rfl
      | some l =>
        rcases hs : NLJ.scanL lsel rsel r l lrem with _ | ⟨l', lrem'⟩
        · cases lAll with
          | nil =>
            simp only [NLJ.findMatch, hs]
            refine ⟨by intro x hx; exact Option.noConfusion hx, by simp, ?_,
              ?_⟩
            · intro x hx
              simp only [Option.some.injEq] at hx
              exact hx ▸ hRrem r2 (by simp)
            · intro x hx
              exact hRrem x (List.mem_cons_of_mem r2 hx)
          | cons l0 lrest0 =>
            simp only [NLJ.findMatch, hs]
            exact ih (some l0) lrest0 (some r2)
              (by intro x hx; simp only [Option.some.injEq] at hx
                  exact hx ▸ hAll l0 (by simp))
              (by intro x hx; exact hAll x (List.mem_cons_of_mem l0 hx))
              (by intro x hx; simp only [Option.some.injEq] at hx
                  exact hx ▸ hRrem r2 (by simp))
              (by intro x hx; exact hRrem x (List.mem_cons_of_mem r2 hx))
        · obtain ⟨hl', hsub⟩ := scanL_mem lsel rsel r lrem l l' lrem' hs
          have hQpool : ∀ x ∈ l :: lrem, Q x := by
            intro x hx
            rcases List.mem_cons.mp hx with rfl | hx
            · exact hQl x rfl
            · exact hQrem x hx
          simp only [NLJ.findMatch, hs]
          refine ⟨?_, ?_, ?_, hRrem⟩
          · intro x hx
            simp only [Option.some.injEq] at hx
            exact hx ▸ hQpool l' hl'
          · intro x hx
            exact hQpool x (hsub x hx)
          · intro x hx
            simp only [Option.some.injEq] at hx
            exact hx ▸ hRr r rfl

/-- With an exhausted right child, `NestedLoopsJoin::next` returns the
end-of-stream sentinel. -/
theorem nlj_step_none_of_rrem_nil (s : NLJState) (h : s.rrem = []) :
    (NLJ.step s).1 = none := by
  cases s with
  | mk lsel rsel lw rw lAll rAll lrow lrem rrem =>
    simp only at h
    subst h
    cases lrow <;> simp [NLJ.step, NLJ.findMatch]

/-- Every `next` call on a non-exhausted right child strictly consumes
the right cursor. -/
theorem nlj_step_rrem_lt (s : NLJState) (h : s.rrem ≠ []) :
    ((NLJ.step s).2).rrem.length < s.rrem.length := by
  cases s with
  | mk lsel rsel lw rw lAll rAll lrow lrem rrem =>
    simp only at h
    cases rrem with
    | nil => simp at h
    | cons r2 rrest =>
      have hle := findMatch_rrem_le lsel rsel lAll rrest lrow lrem (some r2)
      rcases ht : NLJ.findMatch lsel rsel lAll lrow lrem (some r2) rrest with
        ⟨o1, l1, o2, r1⟩
      rw [ht] at hle
      simp only at hle
      cases o1 <;> cases o2 <;> simp [NLJ.step, ht] <;> omega

/-- Over any drain, `NestedLoopsJoin` returns at most as many rows as its
right cursor holds. -/
theorem nlj_drain_le :
    ∀ (fuel : Nat) (s : NLJState),
      (runFuel NLJ.step fuel s).length ≤ s.rrem.length := by
  intro fuel
  induction fuel with
  | zero => intro s; simp [runFuel]
  | succ f ih =>
    intro s
    rcases hstep : NLJ.step s with ⟨o, s'⟩
    cases o with
    | none => simp [runFuel, hstep]
    | some r =>
      have h1 : s.rrem ≠ [] := by
        intro hnil
        have h0 := nlj_step_none_of_rrem_nil s hnil
        rw [hstep] at h0
        simp at h0
      have h2 := nlj_step_rrem_lt s h1
      rw [hstep] at h2
      have h3 := ih s'
      simp only [runFuel, hstep, List.length_cons]
      rcases hr : s.rrem with _ | ⟨a, t⟩
      · exact absurd hr h1
      · rw [hr] at h2
        simp only [List.length_cons] at h2 ⊢
        omega

/-! ## Unique lemmas -/

/-- Rows emitted by `Unique::next` come from the child, and the child
cursor only shrinks. -/
theorem unique_next_mem (lastRow? : Option Row) :
    ∀ l : List Row,
      (∀ r, (UniqueOp.next lastRow? l).1 = some r → r ∈ l) ∧
      (∀ x ∈ (UniqueOp.next lastRow? l).2.2, x ∈ l) := by
  intro l
  induction l with
  | nil =>
    constructor
    · intro r h
      simp [UniqueOp.next] at h
    · intro x h
      simp [UniqueOp.next] at h
  | cons row rest ih =>
    cases lastRow? with
    | none =>
      constructor
      · intro r h
        simp only [UniqueOp.next, Option.some.injEq] at h
        simp [← h]
      · intro x h
        simp only [UniqueOp.next] at h
        exact List.mem_cons_of_mem row h
    | some lastRow =>
      by_cases hlen : row.length = lastRow.length
      · by_cases heq : allColumnsEq row lastRow
        · constructor
          · intro r h
            simp only [UniqueOp.next, if_pos hlen, if_pos heq] at h
            exact List.mem_cons_of_mem row (ih.1 r h)
          · intro x h
            simp only [UniqueOp.next, if_pos hlen, if_pos heq] at h
            exact List.mem_cons_of_mem row (ih.2 x h)
        · constructor
          · intro r h
            simp only [UniqueOp.next, if_pos hlen, if_neg heq,
              Option.some.injEq] at h
            simp [← h]
          · intro x h
            simp only [UniqueOp.next, if_pos hlen, if_neg heq] at h
            exact List.mem_cons_of_mem row h
      · constructor
        · intro r h
          simp only [UniqueOp.next, if_neg hlen] at h
          exact List.mem_cons_of_mem row (ih.1 r h)
        · intro x h
          simp only [UniqueOp.next, if_neg hlen] at h
          exact List.mem_cons_of_mem row (ih.2 x h)

/-- Rows emitted by `Select::next` come from the child, and the child
cursor only shrinks. -/
theorem sel_next_mem (p : Row → Bool) :
    ∀ (l : List Row) (r : Row) (rest : List Row),
      Sel.next p l = (some r, rest) → r ∈ l ∧ ∀ x ∈ rest, x ∈ l := by
  intro l
  induction l with
  | nil => intro r rest h; simp [Sel.next] at h
  | cons row t ih =>
    intro r rest h
    by_cases hp : p row
    · simp only [Sel.next, if_pos hp, Prod.mk.injEq, Option.some.injEq] at h
      obtain ⟨rfl, rfl⟩ := h
      exact ⟨by simp, fun x hx => List.mem_cons_of_mem _ hx⟩
    · simp only [Sel.next, if_neg hp] at h
      obtain ⟨h1, h2⟩ := ih r rest h
      exact ⟨List.mem_cons_of_mem _ h1,
        fun x hx => List.mem_cons_of_mem _ (h2 x hx)⟩

/-- Rows emitted by `IndexScan::next` are data rows of the remaining
entries, and the cursor only shrinks. -/
theorem is_next_mem (lo hi : Row) :
    ∀ (l : List (Row × Row)) (d : Row) (rest : List (Row × Row)),
      IS.next lo hi l = (some d, rest) →
      (∃ e ∈ l, d = e.2) ∧ ∀ x ∈ rest, x ∈ l := by
  intro l
  induction l with
  | nil => intro d rest h; simp [IS.next] at h
  | cons e t ih =>
    intro d rest h
    by_cases hin : rowAt lo 0 ≤ rowAt e.1 0 ∧ rowAt e.1 0 ≤ rowAt hi 0
    · simp only [IS.next, if_pos hin, Prod.mk.injEq, Option.some.injEq] at h
      obtain ⟨rfl, rfl⟩ := h
      exact ⟨⟨e, by simp⟩, fun x hx => List.mem_cons_of_mem _ hx⟩
    · simp only [IS.next, if_neg hin] at h
      obtain ⟨⟨e2, he2, hd⟩, h2⟩ := ih d rest h
      exact ⟨⟨e2, List.mem_cons_of_mem _ he2, hd⟩,
        fun x hx => List.mem_cons_of_mem _ (h2 x hx)⟩

/-- `NestedLoopsJoin::next` preserves the construction-time
configuration and the width invariants of its pools, and each emitted row
has width left width + right width − 1. -/
theorem nlj_step_pres (s : NLJState)
    (hk : s.rsel.getD 0 0 < s.rw)
    (h1 : ∀ x, s.lrow = some x → x.length = s.lw)
    (h2 : ∀ x ∈ s.lrem, x.length = s.lw)
    (h3 : ∀ x ∈ s.lAll, x.length = s.lw)
    (h4 : ∀ x ∈ s.rrem, x.length = s.rw) :
    (∀ r, (NLJ.step s).1 = some r → r.length = s.lw + s.rw - 1) ∧
    (NLJ.step s).2.lsel = s.lsel ∧ (NLJ.step s).2.rsel = s.rsel ∧
    (NLJ.step s).2.lw = s.lw ∧ (NLJ.step s).2.rw = s.rw ∧
    (NLJ.step s).2.lAll = s.lAll ∧
    (∀ x, (NLJ.step s).2.lrow = some x → x.length = s.lw) ∧
    (∀ x ∈ (NLJ.step s).2.lrem, x.length = s.lw) ∧
    (∀ x ∈ (NLJ.step s).2.rrem, x.length = s.rw) := by
  rcases s with ⟨lsel, rsel, lw, rw, lAll, rAll, lrow, lrem, rrem⟩
  simp only at hk h1 h2 h3 h4 ⊢
  cases rrem with
  | nil =>
    cases lrow with
    | none =>
      simp only [NLJ.step, NLJ.findMatch, List.head?_nil, List.tail_nil]
      exact ⟨by intro r h; exact Option.noConfusion h, by trivial, by trivial,
        by trivial, by trivial, by trivial, h1, h2, by simp⟩
    | some l =>
      simp only [NLJ.step, NLJ.findMatch, List.head?_nil, List.tail_nil]
      exact ⟨by intro r h; exact Option.noConfusion h, by trivial, by trivial,
        by trivial, by trivial, by trivial, h1, h2, by simp⟩
  | cons r2 rrest =>
    have hpools := findMatch_pools lsel rsel lAll
      (fun x => x.length = lw) (fun x => x.length = rw) h3
      rrest lrow lrem (some r2)
      h1 h2
      (by intro x hx
          simp only [Option.some.injEq] at hx
          exact hx ▸ h4 r2 (by simp))
      (by intro x hx; exact h4 x (List.mem_cons_of_mem r2 hx))
    rcases ht : NLJ.findMatch lsel rsel lAll lrow lrem (some r2) rrest with
      ⟨o1, l1, o2, r1⟩
    rw [ht] at hpools
    simp only at hpools
    obtain ⟨p1, p2, p3, p4⟩ := hpools
    have hhead : (r2 :: rrest).head? = some r2 := rfl
    have htail : (r2 :: rrest).tail = rrest := rfl
    cases o1 with
    | none =>
      simp only [NLJ.step, hhead, htail, ht]
      cases o2 with
      | none =>
        exact ⟨by intro r h; exact Option.noConfusion h, by trivial,
          by trivial, by trivial, by trivial, by trivial, p1, p2, p4⟩
      | some r =>
        exact ⟨by intro r h; exact Option.noConfusion h, by trivial,
          by trivial, by trivial, by trivial, by trivial, p1, p2, p4⟩
    | some l =>
      cases o2 with
      | none =>
        simp only [NLJ.step, hhead, htail, ht]
        exact ⟨by intro r h; exact Option.noConfusion h, by trivial,
          by trivial, by trivial, by trivial, by trivial, p1, p2, p4⟩
      | some r =>
        simp only [NLJ.step, hhead, htail, ht]
        refine ⟨?_, by trivial, by trivial, by trivial, by trivial,
          by trivial, p1, p2, p4⟩
        intro r0 h0
        simp only [Option.some.injEq] at h0
        have hlen : r.length = rw := p3 r rfl
        have hllen : l.length = lw := p1 l rfl
        rw [← h0, joinRows_length (rsel.getD 0 0) l r (by omega)]
        omega

/-! ## Claim theorems -/

/-- Claim C1 (amended): Sort's `open` fully drains its child into the
materialized vector; for every child row sequence and every materialized
vector satisfying the `std::sort` postcondition, the sequence returned by
`Sort::next` until end-of-stream is exactly that vector — a permutation
of the child's rows in nondecreasing order under the Row Comparator over
the configured key columns; in particular Sort by column 0 over
[(3,),(1,),(2,)] yields [(1,),(2,),(3,)].  Stability is dropped from the
original claim: `std::sort` does not guarantee it (see the
counterexample). -/
theorem sort_perm_sorted_spec :
    (∀ (s : SortState) (out : List Row) (fuel : Nat),
        sortedPerm s.scols s.childAll out → out.length ≤ fuel →
        runFuel SortOp.step fuel
            { s with childRem := [], sorted := out, rem := out } = out ∧
        (runFuel SortOp.step fuel
            { s with childRem := [], sorted := out, rem := out }).Perm
          s.childAll ∧
        sortedBy s.scols
          (runFuel SortOp.step fuel
            { s with childRem := [], sorted := out, rem := out }) = true) ∧
    (∀ out : List Row, sortedPerm [0] [[3], [1], [2]] out →
        out = [[1], [2], [3]]) := by
  constructor
  · intro s out fuel hsp hfuel
    have hd : runFuel SortOp.step fuel
        { s with childRem := [], sorted := out, rem := out } = out := by
      cases s with
      | mk cw scols childAll childRem sorted rem =>
        exact sort_drain out fuel cw scols childAll [] out hfuel
    refine ⟨hd, ?_, ?_⟩
    · rw [hd]; exact hsp.1
    · rw [hd]; exact hsp.2
  · intro out hsp
    rcases perm_three hsp.1 with rfl | rfl | rfl | rfl | rfl | rfl
    · exact absurd hsp.2 (by decide)
    · exact absurd hsp.2 (by decide)
    · exact absurd hsp.2 (by decide)
    · rfl
    · exact absurd hsp.2 (by decide)
    · exact absurd hsp.2 (by decide)

/-- Witness for C1's amended theorem at the spec's example. -/
theorem sort_perm_sorted_spec_witness :
    runFuel SortOp.step 3
        ({ cw := 1, scols := [0], childAll := [[3], [1], [2]],
           childRem := [], sorted := [[1], [2], [3]],
           rem := [[1], [2], [3]] } : SortState) = [[1], [2], [3]] ∧
    ([[1], [2], [3]] : List Row) = [[1], [2], [3]] := by
  constructor
  · have h := sort_perm_sorted_spec.1
      { cw := 1, scols := [0], childAll := [[3], [1], [2]], childRem := [],
        sorted := [], rem := [] } [[1], [2], [3]] 3
      ⟨by decide, by decide⟩ (by decide)
    exact h.1
  · exact sort_perm_sorted_spec.2 [[1], [2], [3]] ⟨by decide, by decide⟩

/-- Counterexample to claim C1 as stated: rows (1,10) and (1,20) tie on
key column 0 and arrive in that order, so a stable sort must keep (1,10)
first; yet the reversed vector also satisfies everything the `std::sort`
call in `Sort::open` guarantees, so the code does not ensure
stability. -/
theorem sort_stability_counterexample :
    sortedPerm [0] [[1, 10], [1, 20]] [[1, 20], [1, 10]] ∧
    rowLt [0] [1, 10] [1, 20] = false ∧ rowLt [0] [1, 20] [1, 10] = false ∧
    ([[1, 20], [1, 10]] : List Row) ≠ [[1, 10], [1, 20]] :=
  ⟨⟨by decide, by decide⟩, by decide, by decide, by decide⟩

/-- Claim C2 (amended): after close() then open(), TableIterator,
IndexScan, Select, Project, NestedLoopsJoin and Sort are in exactly the
state a fresh open() produces (so draining again returns the identical
row sequence); Unique, however, retains `_last_unique` across
close()/open(), so its second drain is the unique-pass seeded with the
previously last-emitted row rather than a fresh pass. -/
theorem reopen_after_close_spec :
    (∀ s : TIState, TI.openS (TI.closeS s) = TI.openS s) ∧
    (∀ s : ISState, IS.openS (IS.closeS s) = IS.openS s) ∧
    (∀ s : SelState, Sel.openS (Sel.closeS s) = Sel.openS s) ∧
    (∀ s : ProjState, Proj.openS (Proj.closeS s) = Proj.openS s) ∧
    (∀ s : NLJState, NLJ.openS (NLJ.closeS s) = NLJ.openS s) ∧
    (∀ (impl : List Nat → List Row → List Row) (s : SortState),
        SortOp.openS impl (SortOp.closeS s) = SortOp.openS impl s) ∧
    (∀ s : UState,
        UniqueOp.openS (UniqueOp.closeS s) =
          { cw := s.cw, childAll := s.childAll, childRem := s.childAll,
            last := s.last }) :=
  ⟨fun _ => rfl, fun _ => rfl, fun _ => rfl, fun _ => rfl, fun _ => rfl,
    fun _ _ => rfl, fun _ => rfl⟩

/-- Counterexample to claim C2 as stated: Unique over the single-row
child [(1,)] first drains to [(1,)]; after close() and open() the
retained `_last_unique` equals the replayed first row, so the second
drain is empty, not the original sequence. -/
theorem unique_reopen_counterexample :
    (runTrace UniqueOp.step 2 (UniqueOp.openS ⟨1, [[1]], [], none⟩)).1 =
      [[1]] ∧
    runFuel UniqueOp.step 2
      (UniqueOp.openS (UniqueOp.closeS
        (runTrace UniqueOp.step 2 (UniqueOp.openS ⟨1, [[1]], [], none⟩)).2)) =
      [] ∧
    ([] : List Row) ≠ [[1]] :=
  ⟨by decide, by decide, by decide⟩

/-- Claim C3 (amended): Unique emits the first row pulled; thereafter a
child row is skipped exactly when it either equals `_last_unique` (same
size and all columns compare equal) or has a size different from
`_last_unique`; a same-size row differing in some column is emitted and
becomes the new last.  Unique over [(1,),(1,),(2,),(2,),(2,),(3,)]
yields [(1,),(2,),(3,)], and non-adjacent duplicates are not removed. -/
theorem unique_adjacent_spec :
    (∀ (row : Row) (rest : List Row),
        UniqueOp.next none (row :: rest) = (some row, some row, rest)) ∧
    (∀ (lastRow row : Row) (rest : List Row),
        row.length = lastRow.length → allColumnsEq row lastRow = false →
        UniqueOp.next (some lastRow) (row :: rest) =
          (some row, some row, rest)) ∧
    (∀ (lastRow row : Row) (rest : List Row),
        (row.length = lastRow.length ∧ allColumnsEq row lastRow = true) ∨
          row.length ≠ lastRow.length →
        UniqueOp.next (some lastRow) (row :: rest) =
          UniqueOp.next (some lastRow) rest) ∧
    runFuel UniqueOp.step 7
      (UniqueOp.openS ⟨1, [[1], [1], [2], [2], [2], [3]], [], none⟩) =
      [[1], [2], [3]] ∧
    runFuel UniqueOp.step 4 (UniqueOp.openS ⟨1, [[1], [2], [1]], [], none⟩) =
      [[1], [2], [1]] := by
  refine ⟨?_, ?_, ?_, by decide, by decide⟩
  · intro row rest; rfl
  · intro lastRow row rest hlen heq
    simp only [UniqueOp.next, if_pos hlen]
    rw [if_neg (by simp [heq])]
  · intro lastRow row rest h
    rcases h with ⟨hlen, heq⟩ | hlen
    · simp only [UniqueOp.next, if_pos hlen]
      rw [if_pos heq]
    · simp only [UniqueOp.next]
      rw [if_neg hlen]

/-- Witness for C3's amended theorem: a same-size differing row is
emitted; an equal row is skipped and the next differing row emitted. -/
theorem unique_adjacent_spec_witness :
    UniqueOp.next (some [1]) [[2]] = (some [2], some [2], []) ∧
    UniqueOp.next (some [1]) [[1], [2]] = (some [2], some [2], []) := by
  constructor
  · exact unique_adjacent_spec.2.1 [1] [2] [] (by decide) (by decide)
  · rw [unique_adjacent_spec.2.2.1 [1] [1] [[2]]
      (Or.inl ⟨by decide, by decide⟩)]
    exact unique_adjacent_spec.2.1 [1] [2] [] (by decide) (by decide)

/-- Counterexample to claim C3 as stated: over the child [(1,),(2,3)] the
second row differs from the last emitted row (1,), so the claim requires
it to be emitted; the code skips it because its size differs. -/
theorem unique_size_skip_counterexample :
    runFuel UniqueOp.step 3 (UniqueOp.openS ⟨1, [[1], [2, 3]], [], none⟩) =
      [[1]] ∧ ([[1]] : List Row) ≠ [[1], [2, 3]] :=
  ⟨by decide, by decide⟩

/-- Claim C4: NestedLoopsJoin of left [(1,x),(2,y)] with right
[(1,p),(3,q)], joined on column 0 of each side, returns exactly the one
row (1,x,p) and then end-of-stream (here x=10, y=11, p=20, q=21); in
general, on a match the emitted row is all left columns followed by all
right columns except the joined-on right column. -/
theorem nlj_example_and_shape :
    runFuel NLJ.step 5
      (NLJ.openS ⟨[0], [0], 2, 2, [[1, 10], [2, 11]], [[1, 20], [3, 21]],
        none, [], []⟩) = [[1, 10, 20]] ∧
    (∀ (k : Nat) (l r : Row), k < r.length →
        joinRows k l r = l ++ r.eraseIdx k ∧
        (joinRows k l r).length = l.length + r.length - 1) := by
  refine ⟨by decide, ?_⟩
  intro k l r hk
  exact ⟨joinRows_eq k l r, joinRows_length k l r hk⟩

/-- Witness for C4's join-shape clause at the example rows. -/
theorem nlj_example_and_shape_witness :
    joinRows 0 [1, 10] [1, 20] = [1, 10, 20] ∧
    (joinRows 0 [1, 10] [1, 20]).length = 3 := by
  have h := nlj_example_and_shape.2 0 [1, 10] [1, 20] (by decide)
  refine ⟨?_, ?_⟩
  · rw [h.1]; rfl
  · rw [h.2]; decide

/-- Claim C5: the join match predicate depends only on the first selected
join column of each side — rows agreeing there match even if later
selected columns differ — and IndexScan keeps an entry iff its leading
key column lies in [lo[0], hi[0]], regardless of the other key
columns. -/
theorem first_column_only_spec :
    (∀ (lsel rsel : List Nat) (l l2 r r2 : Row),
        rowAt l (lsel.getD 0 0) = rowAt l2 (lsel.getD 0 0) →
        rowAt r (rsel.getD 0 0) = rowAt r2 (rsel.getD 0 0) →
        nljMatch lsel rsel l r = nljMatch lsel rsel l2 r2) ∧
    (nljMatch [0, 1] [0, 1] [1, 5] [1, 7] = true ∧
      rowAt [1, 5] 1 ≠ rowAt [1, 7] 1) ∧
    (∀ (lo hi : Row) (entries : List (Row × Row)) (fuel : Nat),
        entries.length ≤ fuel →
        runFuel (IS.next lo hi) fuel entries =
          (entries.filter (fun e =>
            decide (rowAt lo 0 ≤ rowAt e.1 0 ∧ rowAt e.1 0 ≤ rowAt hi 0))).map
            Prod.snd) := by
  refine ⟨?_, ⟨by decide, by decide⟩, ?_⟩
  · intro lsel rsel l l2 r r2 h1 h2
    unfold nljMatch
    rw [h1, h2]
  · intro lo hi entries fuel h
    exact is_drain lo hi entries fuel h

/-- Witness for C5: agreement on the first selected column alone fixes
the match result, and a point drain instance. -/
theorem first_column_only_spec_witness :
    nljMatch [0, 1] [0, 1] [1, 5] [1, 7] =
      nljMatch [0, 1] [0, 1] [1, 99] [1, 88] ∧
    runFuel (IS.next [2] [2]) 2 [([2, 6], [2, 60]), ([2, 7], [2, 70])] =
      [[2, 60], [2, 70]] := by
  constructor
  · exact first_column_only_spec.1 [0, 1] [0, 1] [1, 5] [1, 99] [1, 7] [1, 88]
      (by decide) (by decide)
  · rw [first_column_only_spec.2.2 [2] [2] _ 2 (by decide)]
    decide

/-- Claim C6 is contradicted by the code: `Select::next` never calls
`Row::reclaim`, so a rejected row is dropped without being reclaimed (a
leak).  The instrumented model records the reclaim calls of a `next`
call: the list is empty for every input, in particular when the
predicate "column 0 > 5" rejects the row (1,). -/
theorem select_no_reclaim :
    (∀ (p : Row → Bool) (l : List Row), (Sel.nextR p l).2.2 = []) ∧
    Sel.nextR gtFive [[1]] = (none, [], []) ∧
    [[1]].filter (fun r => !gtFive r) = [[1]] := by
  refine ⟨?_, by decide, by decide⟩
  intro p l
  induction l with
  | nil => rfl
  | cons row rest ih =>
    by_cases hp : p row
    · simp [Sel.nextR, hp]
    · simp [Sel.nextR, hp, ih]

/-- Claim C7: the sequence returned by Select is exactly the subsequence
of child rows satisfying the predicate, in child order, each accepted row
forwarded unchanged; e.g. "column 0 > 5" over [(1,),(6,),(10,)] returns
[(6,),(10,)] then end-of-stream. -/
theorem select_filter_spec :
    (∀ (p : Row → Bool) (l : List Row) (fuel : Nat), l.length ≤ fuel →
        runFuel (Sel.next p) fuel l = l.filter p) ∧
    runFuel (Sel.next gtFive) 3 [[1], [6], [10]] = [[6], [10]] :=
  ⟨fun p l fuel h => sel_drain p l fuel h, by decide⟩

/-- Witness for C7 at the spec's example with surplus fuel. -/
theorem select_filter_spec_witness :
    runFuel (Sel.next gtFive) 5 [[1], [6], [10]] = [[6], [10]] := by
  rw [select_filter_spec.1 gtFive [[1], [6], [10]] 5 (by decide)]
  decide

/-- Claim C8: an IndexScan constructed with hi == NULL uses lo as the
upper bound, and with lo == hi a full drain returns exactly the data rows
of the entries whose leading key column equals lo[0], and no entry whose
leading key differs. -/
theorem indexscan_point_spec :
    (∀ (ic : Nat) (es : List (Row × Row)) (lo : Row),
        (IS.mkState ic es lo none).hi = lo) ∧
    (∀ (lo : Row) (entries : List (Row × Row)) (fuel : Nat),
        entries.length ≤ fuel →
        runFuel (IS.next lo lo) fuel entries =
          (entries.filter (fun e => decide (rowAt e.1 0 = rowAt lo 0))).map
            Prod.snd) := by
  refine ⟨fun _ _ _ => rfl, ?_⟩
  intro lo entries fuel h
  rw [is_drain lo lo entries fuel h]
  congr 1
  apply List.filter_congr
  intro e _
  rw [decide_eq_decide]
  exact ⟨fun hh => le_antisymm hh.2 hh.1, fun hh => ⟨le_of_eq hh.symm, le_of_eq hh⟩⟩

/-- Witness for C8: default upper bound and a point drain instance. -/
theorem indexscan_point_spec_witness :
    (IS.mkState 2 [([2, 6], [2, 60])] [2] none).hi = [2] ∧
    runFuel (IS.next [2] [2]) 4
        [([1, 5], [1, 50]), ([2, 6], [2, 60]), ([2, 7], [2, 70]),
          ([3, 8], [3, 80])] = [[2, 60], [2, 70]] := by
  constructor
  · exact indexscan_point_spec.1 2 [([2, 6], [2, 60])] [2]
  · rw [indexscan_point_spec.2 [2] _ 4 (by decide)]
    decide

/-- Claim C10: each NestedLoopsJoin::next call on a non-exhausted right
child strictly consumes the right cursor; a returned match pairs the
current right row with the first matching left row at or after the
current left position; hence a full drain returns at most as many rows as
the right child holds. -/
theorem nlj_right_consumption_spec :
    (∀ s : NLJState, s.rrem ≠ [] →
        ((NLJ.step s).2).rrem.length < s.rrem.length) ∧
    (∀ (fuel : Nat) (s : NLJState),
        (runFuel NLJ.step fuel s).length ≤ s.rrem.length) ∧
    (∀ (lsel rsel : List Nat) (r lrow l2 : Row) (lrem lrem2 : List Row),
        NLJ.scanL lsel rsel r lrow lrem = some (l2, lrem2) →
        ∃ pre, lrow :: lrem = pre ++ l2 :: lrem2 ∧
          (∀ x ∈ pre, nljMatch lsel rsel x r = false) ∧
          nljMatch lsel rsel l2 r = true) :=
  ⟨nlj_step_rrem_lt, nlj_drain_le,
    fun lsel rsel r lrow l2 lrem lrem2 h =>
      scanL_decomp lsel rsel r lrem lrow l2 lrem2 h⟩

/-- Witness for C10: right-cursor consumption and the first-match
decomposition at concrete inputs. -/
theorem nlj_right_consumption_spec_witness :
    ((NLJ.step ⟨[0], [0], 2, 2, [[1, 10]], [[1, 20]], some [1, 10], [],
        [[1, 20]]⟩).2).rrem.length < 1 ∧
    (∃ pre, ([1, 10] : Row) :: [[9, 9]] = pre ++ [1, 10] :: [[9, 9]] ∧
      (∀ x ∈ pre, nljMatch [0] [0] x [1, 20] = false) ∧
      nljMatch [0] [0] [1, 10] [1, 20] = true) := by
  constructor
  · exact nlj_right_consumption_spec.1
      ⟨[0], [0], 2, 2, [[1, 10]], [[1, 20]], some [1, 10], [], [[1, 20]]⟩
      (by decide)
  · exact nlj_right_consumption_spec.2.2 [0] [0] [1, 20] [1, 10] [1, 10]
      [[9, 9]] [[9, 9]] (by decide)

/-- Claim C9: for every operator `n_columns` is unchanged by `next`
(it reads only construction-time configuration), and — whenever the
table/index/child rows have the advertised widths — every row returned
during a drain has exactly `n_columns` columns; in particular
NestedLoopsJoin rows have left width + right width − 1 columns, and
Project rows have `n_selected` columns with no width hypothesis at
all. -/
theorem n_columns_width_spec :
    (∀ s : TIState, TI.nColumns (TI.step s).2 = TI.nColumns s) ∧
    (∀ (s : TIState) (fuel : Nat),
        (∀ r ∈ s.rem, r.length = TI.nColumns s) →
        ∀ row ∈ runFuel TI.step fuel s, row.length = TI.nColumns s) ∧
    (∀ s : ISState, IS.nColumns (IS.step s).2 = IS.nColumns s) ∧
    (∀ (s : ISState) (fuel : Nat),
        (∀ e ∈ s.rem, e.2.length = IS.nColumns s) →
        ∀ row ∈ runFuel IS.step fuel s, row.length = IS.nColumns s) ∧
    (∀ (p : Row → Bool) (s : SelState),
        Sel.nColumns (Sel.step p s).2 = Sel.nColumns s) ∧
    (∀ (p : Row → Bool) (s : SelState) (fuel : Nat),
        (∀ r ∈ s.rem, r.length = Sel.nColumns s) →
        ∀ row ∈ runFuel (Sel.step p) fuel s, row.length = Sel.nColumns s) ∧
    (∀ s : ProjState, Proj.nColumns (Proj.step s).2 = Proj.nColumns s) ∧
    (∀ (s : ProjState) (fuel : Nat),
        ∀ row ∈ runFuel Proj.step fuel s, row.length = Proj.nColumns s) ∧
    (∀ s : NLJState, NLJ.nColumns (NLJ.step s).2 = NLJ.nColumns s) ∧
    (∀ (s : NLJState) (fuel : Nat),
        s.rsel.getD 0 0 < s.rw →
        (∀ x, s.lrow = some x → x.length = s.lw) →
        (∀ x ∈ s.lrem, x.length = s.lw) →
        (∀ x ∈ s.lAll, x.length = s.lw) →
        (∀ x ∈ s.rrem, x.length = s.rw) →
        ∀ row ∈ runFuel NLJ.step fuel s, row.length = NLJ.nColumns s) ∧
    (∀ s : SortState, SortOp.nColumns (SortOp.step s).2 = SortOp.nColumns s) ∧
    (∀ (s : SortState) (out : List Row) (fuel : Nat),
        sortedPerm s.scols s.childAll out →
        (∀ r ∈ s.childAll, r.length = SortOp.nColumns s) →
        ∀ row ∈ runFuel SortOp.step fuel
            { s with childRem := [], sorted := out, rem := out },
          row.length = SortOp.nColumns s) ∧
    (∀ s : UState,
        UniqueOp.nColumns (UniqueOp.step s).2 = UniqueOp.nColumns s) ∧
    (∀ (s : UState) (fuel : Nat),
        (∀ r ∈ s.childRem, r.length = UniqueOp.nColumns s) →
        ∀ row ∈ runFuel UniqueOp.step fuel s,
          row.length = UniqueOp.nColumns s) := by
  refine ⟨?_, ?_, ?_, ?_, ?_, ?_, ?_, ?_, ?_, ?_, ?_, ?_, ?_, ?_⟩
  · intro s
    rcases s with ⟨tc, tall, trem⟩
    cases trem <;> rfl
  · intro s fuel hw
    refine runFuel_inv_mem TI.step (fun row => row.length = TI.nColumns s)
      (fun t => t.tcols = s.tcols ∧ ∀ r ∈ t.rem, r.length = s.tcols) ?_ fuel s
      ⟨rfl, hw⟩
    intro t ht r t2 hstep
    rcases t with ⟨tc, tall, trem⟩
    cases trem with
    | nil => simp [TI.step] at hstep
    | cons r0 rest =>
      simp only [TI.step, Prod.mk.injEq, Option.some.injEq] at hstep
      obtain ⟨rfl, rfl⟩ := hstep
      exact ⟨ht.2 r0 (by simp), ht.1,
        fun x hx => ht.2 x (List.mem_cons_of_mem _ hx)⟩
  · intro s; rfl
  · intro s fuel hw
    refine runFuel_inv_mem IS.step (fun row => row.length = IS.nColumns s)
      (fun t => t.icols = s.icols ∧ ∀ e ∈ t.rem, e.2.length = s.icols) ?_ fuel
      s ⟨rfl, hw⟩
    intro t ht r t2 hstep
    rcases t with ⟨ic, ents, lo, hi, trem⟩
    rcases hn : IS.next lo hi trem with ⟨o, rest⟩
    simp only [IS.step, hn] at hstep
    cases o with
    | none => simp at hstep
    | some d =>
      simp only [Prod.mk.injEq, Option.some.injEq] at hstep
      obtain ⟨rfl, rfl⟩ := hstep
      obtain ⟨⟨e, he, hd⟩, hsub⟩ := is_next_mem lo hi trem d rest hn
      refine ⟨?_, ht.1, ?_⟩
      · rw [hd]; exact ht.2 e he
      · intro x hx; exact ht.2 x (hsub x hx)
  · intro p s; rfl
  · intro p s fuel hw
    refine runFuel_inv_mem (Sel.step p) (fun row => row.length = Sel.nColumns s)
      (fun t => t.cw = s.cw ∧ ∀ r ∈ t.rem, r.length = s.cw) ?_ fuel s ⟨rfl, hw⟩
    intro t ht r t2 hstep
    rcases t with ⟨cw0, tall, trem⟩
    rcases hn : Sel.next p trem with ⟨o, rest⟩
    simp only [Sel.step, hn] at hstep
    cases o with
    | none => simp at hstep
    | some d =>
      simp only [Prod.mk.injEq, Option.some.injEq] at hstep
      obtain ⟨rfl, rfl⟩ := hstep
      obtain ⟨hmem, hsub⟩ := sel_next_mem p trem d rest hn
      exact ⟨ht.2 d hmem, ht.1, fun x hx => ht.2 x (hsub x hx)⟩
  · intro s; rfl
  · intro s fuel
    refine runFuel_inv_mem Proj.step (fun row => row.length = Proj.nColumns s)
      (fun t => t.cols = s.cols) ?_ fuel s rfl
    intro t ht r t2 hstep
    rcases t with ⟨cols0, tall, trem⟩
    cases trem with
    | nil => simp [Proj.step, Proj.next] at hstep
    | cons row0 rest =>
      simp only [Proj.step, Proj.next, Prod.mk.injEq,
        Option.some.injEq] at hstep
      obtain ⟨rfl, rfl⟩ := hstep
      constructor
      · simp only at ht
        simp [Proj.nColumns, ht]
      · exact ht
  · intro s
    rcases s with ⟨lsel, rsel, lw, rw, lAll, rAll, lrow, lrem, rrem⟩
    cases rrem with
    | nil => cases lrow <;> rfl
    | cons r2 rrest =>
      rcases ht : NLJ.findMatch lsel rsel lAll lrow lrem (some r2) rrest with
        ⟨o1, l1, o2, r1⟩
      cases o1 <;> cases o2 <;> simp [NLJ.step, ht, NLJ.nColumns]
  · intro s fuel hk h1 h2 h3 h4
    refine runFuel_inv_mem NLJ.step (fun row => row.length = NLJ.nColumns s)
      (fun t => t.lsel = s.lsel ∧ t.rsel = s.rsel ∧ t.lw = s.lw ∧
        t.rw = s.rw ∧ t.lAll = s.lAll ∧
        (∀ x, t.lrow = some x → x.length = s.lw) ∧
        (∀ x ∈ t.lrem, x.length = s.lw) ∧
        (∀ x ∈ t.rrem, x.length = s.rw)) ?_ fuel s
      ⟨rfl, rfl, rfl, rfl, rfl, h1, h2, h4⟩
    intro t ht r t2 hstep
    obtain ⟨e1, e2, e3, e4, e5, q1, q2, q3⟩ := ht
    have hp := nlj_step_pres t
      (by rw [e2, e4]; exact hk)
      (by rw [e3]; exact q1)
      (by rw [e3]; exact q2)
      (by rw [e5, e3]; exact h3)
      (by rw [e4]; exact q3)
    rw [hstep] at hp
    simp only at hp
    obtain ⟨w1, c1, c2, c3, c4, c5, r1, r2, r3⟩ := hp
    refine ⟨?_, ?_, ?_, ?_, ?_, ?_, ?_, ?_, ?_⟩
    · have := w1 r rfl
      rw [e3, e4] at this
      exact this
    · rw [c1]; exact e1
    · rw [c2]; exact e2
    · rw [c3]; exact e3
    · rw [c4]; exact e4
    · rw [c5]; exact e5
    · intro x hx
      have := r1 x hx
      rw [e3] at this
      exact this
    · intro x hx
      have := r2 x hx
      rw [e3] at this
      exact this
    · intro x hx
      have := r3 x hx
      rw [e4] at this
      exact this
  · intro s
    rcases s with ⟨cw0, scols0, ca, cr, srt, trem⟩
    cases trem <;> rfl
  · intro s out fuel hsp hw
    refine runFuel_inv_mem SortOp.step
      (fun row => row.length = SortOp.nColumns s)
      (fun t => t.cw = s.cw ∧ ∀ r ∈ t.rem, r.length = s.cw) ?_ fuel
      { s with childRem := [], sorted := out, rem := out }
      ⟨rfl, fun r hr => hw r (hsp.1.mem_iff.mp hr)⟩
    intro t ht r t2 hstep
    rcases t with ⟨cw0, scols0, ca, cr, srt, trem⟩
    cases trem with
    | nil => simp [SortOp.step] at hstep
    | cons r0 rest =>
      simp only [SortOp.step, Prod.mk.injEq, Option.some.injEq] at hstep
      obtain ⟨rfl, rfl⟩ := hstep
      exact ⟨ht.2 r0 (by simp), ht.1,
        fun x hx => ht.2 x (List.mem_cons_of_mem _ hx)⟩
  · intro s; rfl
  · intro s fuel hw
    refine runFuel_inv_mem UniqueOp.step
      (fun row => row.length = UniqueOp.nColumns s)
      (fun t => t.cw = s.cw ∧ ∀ r ∈ t.childRem, r.length = s.cw) ?_ fuel s
      ⟨rfl, hw⟩
    intro t ht r t2 hstep
    rcases t with ⟨cw0, ca, crem, last0⟩
    rcases hn : UniqueOp.next last0 crem with ⟨o, last1, rest⟩
    simp only [UniqueOp.step, hn] at hstep
    cases o with
    | none => simp at hstep
    | some d =>
      simp only [Prod.mk.injEq, Option.some.injEq] at hstep
      obtain ⟨rfl, rfl⟩ := hstep
      have hm := unique_next_mem last0 crem
      rw [hn] at hm
      simp only at hm
      exact ⟨ht.2 d (hm.1 d rfl), ht.1, fun x hx => ht.2 x (hm.2 x hx)⟩

/-- Witness for C9: a stability instance and width instances for all
seven operators at concrete states, each obtained from the theorem. -/
theorem n_columns_width_spec_witness :
    TI.nColumns (TI.step ⟨1, [[5]], [[5]]⟩).2 = TI.nColumns ⟨1, [[5]], [[5]]⟩ ∧
    ([5] : Row).length = 1 ∧
    ([2, 60] : Row).length = 2 ∧
    ([6] : Row).length = 1 ∧
    ([2, 1] : Row).length = 2 ∧
    ([1, 10, 20] : Row).length = 3 ∧
    ([1] : Row).length = 1 ∧
    ([7] : Row).length = 1 := by
  refine ⟨?_, ?_, ?_, ?_, ?_, ?_, ?_, ?_⟩
  · exact n_columns_width_spec.1 ⟨1, [[5]], [[5]]⟩
  · exact n_columns_width_spec.2.1 ⟨1, [[5]], [[5]]⟩ 1 (by decide) [5]
      (by decide)
  · exact n_columns_width_spec.2.2.2.1
      ⟨2, [([2, 6], [2, 60])], [2], [2], [([2, 6], [2, 60])]⟩ 1 (by decide)
      [2, 60] (by decide)
  · exact n_columns_width_spec.2.2.2.2.2.1 gtFive ⟨1, [[6]], [[6]]⟩ 1
      (by decide) [6] (by decide)
  · exact n_columns_width_spec.2.2.2.2.2.2.2.1 ⟨[1, 0], [[1, 2]], [[1, 2]]⟩ 1
      [2, 1] (by decide)
  · exact n_columns_width_spec.2.2.2.2.2.2.2.2.2.1
      ⟨[0], [0], 2, 2, [[1, 10], [2, 11]], [[1, 20], [3, 21]], some [1, 10],
        [[2, 11]], [[1, 20], [3, 21]]⟩ 1 (by decide)
      (by intro x hx
          injection hx with h
          exact h ▸ (by decide : ([1, 10] : Row).length = 2))
      (by decide) (by decide) (by decide) [1, 10, 20] (by decide)
  · exact n_columns_width_spec.2.2.2.2.2.2.2.2.2.2.2.1
      ⟨1, [0], [[3], [1], [2]], [], [], []⟩ [[1], [2], [3]] 3
      ⟨by decide, by decide⟩ (by decide) [1] (by decide)
  · exact n_columns_width_spec.2.2.2.2.2.2.2.2.2.2.2.2.2 ⟨1, [[7]], [[7]], none⟩
      1 (by decide) [7] (by decide)

end DBOps
